import Mathlib

/-!
Verification of the FatPigeorzFS filesystem core (Rust sources under `src/src/fs/`)
against its natural-language specification.

The development shallowly embeds the functions the claims are about: the
write-ahead log (`src/fs/log.rs`), the bitmap free routine, inode allocation,
the block map and directory unlink (`src/fs/inode.rs`), file unlink
(`src/fs/file.rs`), and superblock initialization (`src/fs/superblock.rs`).
Machine integers are modelled by `Nat` (the quantities involved are small and
no wrap-around is reachable on the modelled code paths); Rust panics
(assertion failures, out-of-bounds indexing, explicit `panic!`) are modelled
by `Option`/`Except`-style results or by dedicated result constructors.
-/

namespace FatFS

/-! ## Constants (`src/fs/fs.rs`) -/

/-- `BLOCK_SIZE : u32 = 512` (`fs.rs`). -/
def BLOCK_SIZE : Nat := 512

/-- `MAXOPBLOCKS : u32 = 16` — maximum blocks one FS op may write (`fs.rs`). -/
def MAXOPBLOCKS : Nat := 16

/-- `LOGSIZE : u32 = MAXOPBLOCKS * 3 + 1` — size of log buffer + log header (`fs.rs`). -/
def LOGSIZE : Nat := MAXOPBLOCKS * 3 + 1

/-- `NDIRECT : u32 = 11` (`fs.rs`). -/
def NDIRECT : Nat := 11

/-- `NINDIRECT : u32 = BLOCK_SIZE / size_of::<u32>()` (`fs.rs`). -/
def NINDIRECT : Nat := BLOCK_SIZE / 4

/-- `MAXFILE : u32 = NDIRECT + NINDIRECT + NINDIRECT * NINDIRECT` (`fs.rs` lines 10-12). -/
def MAXFILE : Nat := NDIRECT + NINDIRECT + NINDIRECT * NINDIRECT

/-- `ROOTINO : u32 = 1` (`fs.rs`). -/
def ROOTINO : Nat := 1

/-- `NINODES : u32 = 1000` (`fs.rs`). -/
def NINODES : Nat := 1000

/-- Modelled from the spec: `BPB` (bits per bitmap block) is imported by
`src/fs/inode.rs` but its definition is missing from the sources under
`src/`; the spec's glossary fixes it as `B·8 = 4096`. -/
def BPB : Nat := BLOCK_SIZE * 8

/-- `FileType::Free as u16 = 0` (used by `inode.rs` and `file.rs`). -/
def FT_FREE : Nat := 0

/-- `FileType::File as u16 = 1`. -/
def FT_FILE : Nat := 1

/-- `FileType::Dir as u16 = 2`. -/
def FT_DIR : Nat := 2

/-- `FATPIGEORZMAGIC : u32 = 0x14451100` (`fs.rs`). -/
def FATPIGEORZMAGIC : Nat := 0x14451100

/-! ## The on-disk log (`src/fs/log.rs`)

A disk image is modelled as the content of the log-header block (block
`head = sb.logstart`), decoded as a `LogHeader`, together with a map from
block ids to abstract block contents (`Nat`).  The slot `blk head` is
shadowed by `hdr` and is never read by the modelled code.  `LogHeader.block`
holds the on-disk `block` array (`[u32; LOGSIZE - 1]`), of which only the
first `n` entries are ever read; it is modelled as a list. -/

/-- `LogHeader { n: u32, block: [u32; LOGSIZE - 1] }` (`log.rs` lines 14-17). -/
structure LogHeader where
  n : Nat
  block : List Nat
deriving DecidableEq

/-- A disk image as seen by the log layer: the decoded log-header block plus
the raw contents of all other blocks. -/
structure Disk where
  hdr : LogHeader
  blk : Nat → Nat

/-- One device block write issued by the log layer: either a raw block write
(`BufferBlock::sync` on a data block) or a write of the log-header block
(`Log::write_head`, `log.rs` lines 63-69). -/
inductive Wr where
  | blk (id : Nat) (v : Nat)
  | hdr (h : LogHeader)
deriving DecidableEq

/-- Apply one device write to a disk image. -/
def applyW (d : Disk) : Wr → Disk
  | .blk b v => ⟨d.hdr, Function.update d.blk b v⟩
  | .hdr h => ⟨h, d.blk⟩

/-- Apply a sequence of device writes in order. -/
def applyTrace (d : Disk) (ws : List Wr) : Disk := ws.foldl applyW d

/-- The loop of `Log::install_commit` (`log.rs` lines 93-114) as run during
recovery, reading from the device image: for each `i` in the given index
list, read `block[i]` (a Rust out-of-bounds index panics: `none`), panic if
`block[i] == head + i + 1` (the `panic!`/`assert_ne!` guard), else copy block
`head + i + 1` onto block `block[i]`. -/
def installGo (head : Nat) (dst : List Nat) : List Nat → (Nat → Nat) → Option (Nat → Nat)
  | [], blk => some blk
  | i :: is, blk =>
    match dst.get? i with
    | none => none
    | some b =>
      if b = head + i + 1 then none
      else installGo head dst is (Function.update blk b (blk (head + i + 1)))

/-- `Log::install_commit` applied to a disk image: install log-body blocks
`head+1 .. head+n` to their home locations `block[0..n]`. -/
def install_commit (head : Nat) (h : LogHeader) (blk : Nat → Nat) : Option (Nat → Nat) :=
  installGo head h.block (List.range h.n) blk

/-- `Log::recover` (`log.rs` lines 116-121): read the header from disk,
install the committed blocks, set `n := 0` and write the header back.
`none` models a panic during install. -/
def recover (head : Nat) (d : Disk) : Option Disk :=
  match install_commit head d.hdr d.blk with
  | none => none
  | some blk => some ⟨⟨0, d.hdr.block⟩, blk⟩

/-- The device writes issued by `Log::write_log` (`log.rs` lines 71-91):
for `i < lh.n`, copy the cached (post-operation) image of home block
`lh.block[i]` into log-body block `head + i + 1` and sync.  `cache b` is the
buffer-cache content of block `b` at commit time; logged blocks are pinned in
the cache by `buffer_outstanding`, so the cache holds their post-operation
images throughout the commit. -/
def writeLogW (head : Nat) (lh : LogHeader) (cache : Nat → Nat) : List Wr :=
  (List.range lh.n).map fun i => Wr.blk (head + i + 1) (cache (lh.block.getD i 0))

/-- The device writes issued by `Log::install_commit` during `Log::commit`
(`log.rs` lines 93-114): for `i < lh.n`, copy the cached image of log-body
block `head + i + 1` — which `write_log` staged to equal `cache lh.block[i]`,
the home blocks being disjoint from the log area — onto home block
`lh.block[i]` and sync. -/
def installCommitW (lh : LogHeader) (cache : Nat → Nat) : List Wr :=
  (List.range lh.n).map fun i => Wr.blk (lh.block.getD i 0) (cache (lh.block.getD i 0))

/-- `Log::commit` (`log.rs` lines 123-133) as its sequence of device writes:
if `n > 0`, write the log body, write the header (the commit point), install
to the home blocks, then write the cleared header (`n = 0`, array
unchanged).  If `n = 0`, commit issues no writes. -/
def commitW (head : Nat) (lh : LogHeader) (cache : Nat → Nat) : List Wr :=
  if 0 < lh.n then
    writeLogW head lh cache ++ [Wr.hdr ⟨lh.n, lh.block⟩]
      ++ installCommitW lh cache ++ [Wr.hdr ⟨0, lh.block⟩]
  else []

/-- Block `b` lies outside the log area `[head, head + size)`; home blocks of
a transaction are outside the log area. -/
def outside (head size b : Nat) : Prop := b < head ∨ head + size ≤ b

instance (head size b : Nat) : Decidable (outside head size b) := by
  unfold outside; infer_instance

/-- The post-operation image of the home blocks: each logged block holds its
cached (post-operation) content, every other block its pre-operation
content. -/
def postBlk (dst : List Nat) (cache d0blk : Nat → Nat) : Nat → Nat :=
  fun b => if b ∈ dst then cache b else d0blk b

/-- Fold step recording the last raw write to block `b` (helper for
reasoning about `applyTrace`). -/
def trValF (b : Nat) (acc : Option Nat) (w : Wr) : Option Nat :=
  match w with
  | .blk id v => if id = b then some v else acc
  | .hdr _ => acc

/-- Value of the last raw write to block `b` in a trace, if any. -/
def trVal (b : Nat) (ws : List Wr) : Option Nat := ws.foldl (trValF b) none

/-- Fold step recording the last header write. -/
def trHdrF (acc : Option LogHeader) (w : Wr) : Option LogHeader :=
  match w with
  | .hdr h => some h
  | .blk _ _ => acc

/-- The last header write in a trace, if any. -/
def trHdr (ws : List Wr) : Option LogHeader := ws.foldl trHdrF none

/-! ## The in-memory log manager (`src/fs/log.rs`, `LogManager`) -/

/-- Result of `LogManager::write`: `assertFail` models a failure of one of
the two `assert!`s, `indexPanic` models the Rust out-of-bounds panic on
`lh.block[n]`, `ok` a normal return with the updated header. -/
inductive LmResult where
  | assertFail
  | indexPanic
  | ok (lh : LogHeader)
deriving DecidableEq

/-- `LogManager::write` (`log.rs` lines 171-195): assert `lh.n < LOGSIZE`,
assert `outstanding > 0`; scan `block[0..n]` linearly for the buffer's id
(log absorption), store the id at the found slot (or at slot `n`, a Rust
index panic if `n` is outside the fixed `[u32; LOGSIZE-1]` array), and
increment `n` exactly when the id was not found.  The bookkeeping push onto
`buffer_outstanding` (cache pinning) has no effect on the header and is not
modelled. -/
def lm_write (lh : LogHeader) (outstanding : Nat) (id : Nat) : LmResult :=
  if lh.n < LOGSIZE then
    if 0 < outstanding then
      let n' := match (List.range lh.n).find? (fun i => lh.block.getD i 0 == id) with
        | some i => i
        | none => lh.n
      if n' < lh.block.length then
        if n' = lh.n then .ok ⟨lh.n + 1, lh.block.set n' id⟩
        else .ok ⟨lh.n, lh.block.set n' id⟩
      else .indexPanic
    else .assertFail
  else .assertFail

/-! ## The transaction admission protocol (`src/fs/log.rs`, `begin_op` /
`end_op` / `write`)

The client-visible state of the log manager is the logged count `n` and the
multiset of outstanding operations; each outstanding operation carries the
number of fresh block writes it may still issue (the client discipline that
an operation writes at most `MAXOPBLOCKS` distinct blocks, which the
admission control of `begin_op` relies on).  `size` is `self.size = sb.nlog`
(`Log::init`, `log.rs` lines 49-54). -/

/-- Log-manager state: logged count and remaining write budgets of the
outstanding operations (`outstanding` is the length of `ops`). -/
structure LogSt where
  n : Nat
  ops : List Nat
deriving DecidableEq

/-- One transition of the log manager (`log.rs`):
* `beginOp` (lines 147-158): admit a new operation when
  `n + (outstanding + 1) * MAXOPBLOCKS ≤ size`, else wait;
* `writeFresh` / `writeAbsorb` (lines 171-195): a `log_write` by outstanding
  operation `k` of a fresh block (consuming budget, incrementing `n`; the
  store to `block[n]` succeeds only for `n < LOGSIZE - 1`, hence the
  `s.n + 1 < LOGSIZE` guard) or of an already-logged block (absorbed);
* `endOp` (lines 160-169): retire operation `k`; the last operation out
  commits, which resets `n` to 0. -/
inductive LogStep (size : Nat) : LogSt → LogSt → Prop where
  | beginOp (s : LogSt)
      (hguard : s.n + (s.ops.length + 1) * MAXOPBLOCKS ≤ size) :
      LogStep size s ⟨s.n, MAXOPBLOCKS :: s.ops⟩
  | writeFresh (s : LogSt) (k : Nat) (hk : k < s.ops.length)
      (hbudget : 0 < s.ops.getD k 0) (hroom : s.n + 1 < LOGSIZE) :
      LogStep size s ⟨s.n + 1, s.ops.set k (s.ops.getD k 0 - 1)⟩
  | writeAbsorb (s : LogSt) (k : Nat) (hk : k < s.ops.length)
      (habs : 0 < s.n) (hassert : s.n < LOGSIZE) :
      LogStep size s s
  | endOp (s : LogSt) (k : Nat) (hk : k < s.ops.length) :
      LogStep size s ⟨if s.ops.length = 1 then 0 else s.n, s.ops.eraseIdx k⟩

/-- States of the log manager reachable from the initial state
(`Log::new` / after `Log::init`: nothing logged, no outstanding op). -/
inductive LogReach (size : Nat) : LogSt → Prop where
  | init : LogReach size ⟨0, []⟩
  | step (s t : LogSt) : LogReach size s → LogStep size s t → LogReach size t

/-! ## Bitmap block free (`src/fs/inode.rs`, `block_free`) -/

/-- An effect at the buffer layer: `devWrite b` is an immediate device write
of block `b` (`BufferBlock::sync`, issued by `sync_write`, `buffer.rs` lines
88-93); `logAppend b` records block `b` in the current transaction
(`log_write`). -/
inductive Ev where
  | devWrite (blockId : Nat)
  | logAppend (blockId : Nat)
deriving DecidableEq

/-- `block_of_bitmap` (`inode.rs` lines 75-77): `block / BPB + sb.bmapstart`. -/
def block_of_bitmap (bmapstart b : Nat) : Nat := b / BPB + bmapstart

/-- `block_free` (`inode.rs` lines 108-117): with `bno = block_of_bitmap b`
and `bi = b % BPB`, clear bit `bi % 8` of byte `bi / 8` of block `bno` and
write the block back with `BufferBlock::sync_write` — the closure mutates the
cached byte and `sync` immediately writes the block to the device.  `bitmap`
maps block id and byte index to the byte value; the returned trace records
the buffer-layer effects.  The function calls `sync_write`, not `log_write`,
so the trace is a single `devWrite`. -/
def block_free (bmapstart : Nat) (bitmap : Nat → Nat → Nat) (b : Nat) :
    (Nat → Nat → Nat) × List Ev :=
  let bno := block_of_bitmap bmapstart b
  let bi := b % BPB
  let newByte := bitmap bno (bi / 8) &&& (255 - 2 ^ (bi % 8))
  (fun blk byte =>
      if blk = bno ∧ byte = bi / 8 then newByte else bitmap blk byte,
    [Ev.devWrite bno])

instance (p q : Prop) [Decidable p] [Decidable q] : Decidable (p ∧ q) := inferInstance

/-! ## Inode allocation (`src/fs/inode.rs`, `InodePtrManager::inode_alloc`) -/

/-- `DiskInode` (`inode.rs` lines 21-27); `addrs` has `NDIRECT + 1` entries. -/
structure DiskInode where
  dev : Nat
  ftype : Nat
  nlink : Nat
  size : Nat
  addrs : List Nat
deriving DecidableEq

/-- The scan loop of `InodePtrManager::inode_alloc` (`inode.rs` lines
236-249), `for i in ROOTINO..SB.ninodes`: at inode number `i` with `fuel`
numbers left to visit, read the on-disk inode (the `addr_of_inode`
block/offset addressing is abstracted to a map from inode number to
`DiskInode`); if its `ftype` is `Free`, set the requested type via
`log_write` and return it; otherwise continue.  Falling off the end executes
`panic!("InodePtrManager::alloc_inode: no free inode")`, modelled as
`Except.error`.  The result type admits a normal `Option` return so the
spec's claimed `None` return is expressible; no code path produces
`ok none`. -/
def inode_alloc_scan (inodes : Nat → DiskInode) (ftype : Nat) :
    Nat → Nat → Except String (Option (Nat × (Nat → DiskInode)))
  | _, 0 => .error "InodePtrManager::alloc_inode: no free inode"
  | i, fuel + 1 =>
    if (inodes i).ftype = FT_FREE then
      .ok (some (i, Function.update inodes i { inodes i with ftype := ftype }))
    else
      inode_alloc_scan inodes ftype (i + 1) fuel

/-- `InodePtrManager::inode_alloc` (`inode.rs` lines 235-250): scan inode
numbers `ROOTINO ..< ninodes`. -/
def inode_alloc (inodes : Nat → DiskInode) (ninodes ftype : Nat) :
    Except String (Option (Nat × (Nat → DiskInode))) :=
  inode_alloc_scan inodes ftype ROOTINO (ninodes - ROOTINO)

/-! ## Block map (`src/fs/inode.rs`, `block_map`) -/

/-- The state read and written by `block_map`: the inode's `addrs` array
(`NDIRECT` direct slots plus the indirect pointer), the content of the
singly-indirect block (index to stored address; all zeros when the indirect
block was just allocated, since `block_alloc` zeroes fresh blocks), and the
remaining results of `block_alloc` (`alloc = []` models `block_alloc`
returning `None`, whose `unwrap` panics). -/
structure BmapSt where
  addrs : List Nat
  ind : Nat → Nat
  alloc : List Nat

/-- `block_map` (`inode.rs` lines 518-563): for `bn < NDIRECT` return the
direct slot, allocating it if zero; for `NDIRECT ≤ bn < NDIRECT + NINDIRECT`
go through the indirect block, allocating the indirect block and/or the data
slot (written back via `log_write`) as needed; otherwise fall through and
return 0 (no doubly-indirect support).  `none` models the `unwrap` panic when
`block_alloc` is exhausted. -/
def block_map (st : BmapSt) (bn : Nat) : Option (Nat × BmapSt) :=
  if bn < NDIRECT then
    let a := st.addrs.getD bn 0
    if a = 0 then
      match st.alloc with
      | [] => none
      | newa :: rest =>
        some (newa, { st with addrs := st.addrs.set bn newa, alloc := rest })
    else
      some (a, st)
  else
    let bn2 := bn - NDIRECT
    if bn2 < NINDIRECT then
      if st.addrs.getD NDIRECT 0 = 0 then
        match st.alloc with
        | [] => none
        | newi :: rest =>
          -- fresh indirect block: its content reads as zeros, so the data
          -- slot is allocated next
          match rest with
          | [] => none
          | newa :: rest2 =>
            some (newa,
              { addrs := st.addrs.set NDIRECT newi,
                ind := Function.update (fun _ => 0) bn2 newa,
                alloc := rest2 })
      else
        let a := st.ind bn2
        if a = 0 then
          match st.alloc with
          | [] => none
          | newa :: rest =>
            some (newa, { st with ind := Function.update st.ind bn2 newa, alloc := rest })
        else
          some (a, st)
    else
      some (0, st)

/-! ## Superblock initialization (`src/fs/superblock.rs`) -/

/-- `SuperBlock` (`superblock.rs` lines 10-19). -/
structure SuperBlock where
  magic : Nat
  size : Nat
  nblocks : Nat
  ninodes : Nat
  nlog : Nat
  logstart : Nat
  inodestart : Nat
  bmapstart : Nat
deriving DecidableEq

/-- `SuperBlock::new` (`superblock.rs` lines 22-33). -/
def SuperBlock.new : SuperBlock :=
  ⟨FATPIGEORZMAGIC, 0, 0, 0, 0, 0, 0, 0⟩

/-- `SuperBlock::init` (`superblock.rs` lines 35-50): read the superblock
image from block `SB_BLOCK = 1` of the device (`onDisk` is the decoded
image), panic if the magic check fails, else copy every field except `magic`
from the image into `self`.  Note the code tests
`self.magic != FATPIGEORZMAGIC` — the magic of the in-memory struct being
initialized — not the magic of the block just read. -/
def SuperBlock.init (self onDisk : SuperBlock) : Except String SuperBlock :=
  if self.magic ≠ FATPIGEORZMAGIC then
    .error "SuperBlock::init: invalid magic number"
  else
    .ok { self with
      size := onDisk.size, nblocks := onDisk.nblocks, ninodes := onDisk.ninodes,
      nlog := onDisk.nlog, logstart := onDisk.logstart,
      inodestart := onDisk.inodestart, bmapstart := onDisk.bmapstart }

/-! ## Directory unlink and file unlink (`src/fs/inode.rs`, `src/fs/file.rs`) -/

/-- `namecmp` (`inode.rs` lines 37-49): compare the query name `t` against
the stored name bytes `s`, matching each character of `t` against the
corresponding byte of `s` (so `t` being a byte-wise leading segment of `s`
counts as a match). -/
def namecmp : List Nat → List Nat → Bool
  | _, [] => true
  | [], _ :: _ => false
  | c :: s, c2 :: t => c == c2 && namecmp s t

/-- `DirEntry` (`inode.rs` lines 32-35): `inum` and the `NAMESIZE` name
bytes. -/
structure DirEntry where
  inum : Nat
  name : List Nat
deriving DecidableEq

/-- `dirunlink` (`inode.rs` lines 455-478): scan the directory's entries in
order for the first whose stored name matches `name` (`namecmp`); if none
matches, or the matching entry has `inum == 0`, `panic!("dirunlink: no
entry")` (`none`); else zero the entry's `inum` and name bytes
(`nameassign` of the empty string zero-fills the array) and write it back.
The byte-offset scan over the directory's data (`rinode`/`winode` in
`DirEntry`-sized steps) is modelled as a scan of the entry list. -/
def dirunlink (entries : List DirEntry) (name : List Nat) : Option (List DirEntry) :=
  match entries.findIdx? (fun e => namecmp e.name name) with
  | none => none
  | some i =>
    let e := entries.getD i ⟨0, []⟩
    if e.inum = 0 then none
    else some (entries.set i ⟨0, List.replicate e.name.length 0⟩)

/-- Filesystem state seen by `fileunlink`: the on-disk inodes and, for each
directory inode, its decoded entry list. -/
structure FsState where
  inodes : Nat → DiskInode
  dirents : Nat → List DirEntry

/-- `fileunlink` (`file.rs` lines 209-225): with the parent directory of the
path already resolved to inode `dp` (`find_parent_inode`; the claim's
hypothesis that the parent resolves), `dirunlink` the entry from the parent,
then `dp.modify_disk_inode(|d| d.nlink -= 1)` — the code decrements the
nlink of `dp`, the parent directory inode, and never touches the child's
inode. -/
def fileunlink (st : FsState) (dp : Nat) (name : List Nat) : Option FsState :=
  match dirunlink (st.dirents dp) name with
  | none => none
  | some entries2 =>
    some { st with
      dirents := Function.update st.dirents dp entries2,
      inodes := Function.update st.inodes dp
        { st.inodes dp with nlink := (st.inodes dp).nlink - 1 } }

end FatFS

namespace FatFS

/-! ## List helper lemmas -/

/-- Writing back the value already stored at a valid index leaves a list
unchanged. -/
theorem set_getD_self (l : List Nat) (k : Nat) (h : k < l.length) :
    l.set k (l.getD k 0) = l := by
  induction l generalizing k with
  | nil => simp at h
  | cons a l ih =>
    cases k with
    | zero => rfl
    | succ k =>
      simp only [List.length_cons, Nat.succ_lt_succ_iff] at h
      simpa [List.set, List.getD] using ih k h

/-! ## C6: recovery is idempotent -/

/-- C6: if recovery of a disk image succeeds and produces `d'`, then
recovering `d'` again succeeds and produces `d'` unchanged: running recovery
twice in a row produces the same disk image as running it once. -/
theorem recover_idempotent (head : Nat) (d d' : Disk)
    (h : recover head d = some d') : recover head d' = some d' := by
  unfold recover at h ⊢
  cases hinst : install_commit head d.hdr d.blk with
  | none => rw [hinst] at h; cases h
  | some blk =>
    rw [hinst] at h
    injection h with h
    subst h
    simp [install_commit, installGo]

/-- Witness for C6: a concrete disk image on which recovery succeeds, with
the theorem applied to it. -/
theorem recover_idempotent_witness :
    recover 2 ⟨⟨0, [5]⟩, fun _ => 7⟩ = some ⟨⟨0, [5]⟩, fun _ => 7⟩ ∧
    recover 2 ⟨⟨0, [5]⟩, fun _ => 7⟩ = some ⟨⟨0, [5]⟩, fun _ => 7⟩ := by
  refine ⟨rfl, ?_⟩
  exact recover_idempotent 2 ⟨⟨0, [5]⟩, fun _ => 7⟩ ⟨⟨0, [5]⟩, fun _ => 7⟩ rfl

/-! ## C9: the superblock magic check -/

/-- C9: `SuperBlock::init` on a freshly constructed superblock accepts a disk
image whose superblock magic is `0 ≠ FSMAGIC` without panicking (the check
compares `self.magic`, which `SuperBlock::new` set to `FATPIGEORZMAGIC`,
instead of the magic read from the device), contradicting the claim that
initialization panics exactly when the on-disk magic differs from FSMAGIC.
Moreover the accepted result never copies the on-disk magic at all. -/
theorem superblock_init_ignores_disk_magic :
    (0 : Nat) ≠ FATPIGEORZMAGIC ∧
    SuperBlock.init SuperBlock.new ⟨0, 2048, 1868, 1000, 49, 2, 51, 179⟩ =
      .ok ⟨FATPIGEORZMAGIC, 2048, 1868, 1000, 49, 2, 51, 179⟩ := by
  constructor
  · decide
  · rfl

/-! ## C3: `block_free` writes the bitmap block directly, bypassing the log -/

/-- C3: `block_free` clears bit `b % BPB` of `b`'s bitmap block (byte
`(b % BPB) / 8`, bit `(b % BPB) % 8`), but issues an immediate device write
of the bitmap block (`sync_write`) and records nothing in the transaction:
its effect trace is exactly one `devWrite` and contains no `logAppend`. -/
theorem block_free_syncs_not_logs (bmapstart : Nat) (bitmap : Nat → Nat → Nat) (b : Nat) :
    (block_free bmapstart bitmap b).2 = [Ev.devWrite (block_of_bitmap bmapstart b)] ∧
    (∀ x, Ev.logAppend x ∉ (block_free bmapstart bitmap b).2) ∧
    Nat.testBit
      ((block_free bmapstart bitmap b).1 (block_of_bitmap bmapstart b) (b % BPB / 8))
      (b % BPB % 8) = false := by
  refine ⟨rfl, ?_, ?_⟩
  · intro x hx
    simp [block_free] at hx
  · have hlt : b % BPB % 8 < 8 := Nat.mod_lt _ (by norm_num)
    show Nat.testBit
      (if block_of_bitmap bmapstart b = block_of_bitmap bmapstart b ∧
          b % BPB / 8 = b % BPB / 8 then
        bitmap (block_of_bitmap bmapstart b) (b % BPB / 8) &&& (255 - 2 ^ (b % BPB % 8))
      else bitmap (block_of_bitmap bmapstart b) (b % BPB / 8)) (b % BPB % 8) = false
    rw [if_pos ⟨rfl, rfl⟩]
    rw [Nat.testBit_land]
    have : Nat.testBit (255 - 2 ^ (b % BPB % 8)) (b % BPB % 8) = false := by
      set k := b % BPB % 8 with hk
      interval_cases k <;> decide
    simp [this]

/-! ## C5: inode allocation -/

/-- If no inode number in `[i, i + fuel)` is free, the allocation scan runs
off the end and panics. -/
theorem inode_alloc_scan_exhausted (inodes : Nat → DiskInode) (ftype : Nat) :
    ∀ (fuel i : Nat), (∀ j, i ≤ j → j < i + fuel → (inodes j).ftype ≠ FT_FREE) →
    inode_alloc_scan inodes ftype i fuel =
      .error "InodePtrManager::alloc_inode: no free inode" := by
  intro fuel
  induction fuel with
  | zero => intro i _; rfl
  | succ fuel ih =>
    intro i h
    have hi : (inodes i).ftype ≠ FT_FREE := h i (le_refl i) (by omega)
    simp only [inode_alloc_scan, if_neg hi]
    exact ih (i + 1) fun j h1 h2 => h j (by omega) (by omega)

/-- If `i0` is the first free inode number in `[i, i + fuel)`, the scan marks
it with the requested type and returns it. -/
theorem inode_alloc_scan_first (inodes : Nat → DiskInode) (ftype : Nat) :
    ∀ (fuel i i0 : Nat), i ≤ i0 → i0 < i + fuel →
    (inodes i0).ftype = FT_FREE →
    (∀ j, i ≤ j → j < i0 → (inodes j).ftype ≠ FT_FREE) →
    inode_alloc_scan inodes ftype i fuel =
      .ok (some (i0, Function.update inodes i0 { inodes i0 with ftype := ftype })) := by
  intro fuel
  induction fuel with
  | zero => intro i i0 h1 h2 _ _; omega
  | succ fuel ih =>
    intro i i0 h1 h2 hfree hmin
    by_cases hi : (inodes i).ftype = FT_FREE
    · have : i = i0 := by
        by_contra hne
        exact hmin i (le_refl i) (by omega) hi
      subst this
      simp only [inode_alloc_scan, if_pos hi]
    · have hne : i ≠ i0 := fun he => hi (he ▸ hfree)
      simp only [inode_alloc_scan, if_neg hi]
      exact ih (i + 1) i0 (by omega) (by omega) hfree
        fun j hj1 hj2 => hmin j (by omega) hj2

/-- C5 (amended): `inode_alloc` scans on-disk inodes starting at `ROOTINO`;
when every inode in `[ROOTINO, ninodes)` is in use it panics with "no free
inode" (it does not return `None`); otherwise it marks the first free inode
with the requested type via `log_write` and returns it. -/
theorem inode_alloc_first_free (inodes : Nat → DiskInode) (ninodes ftype : Nat) :
    ((∀ j, ROOTINO ≤ j → j < ninodes → (inodes j).ftype ≠ FT_FREE) →
      inode_alloc inodes ninodes ftype =
        .error "InodePtrManager::alloc_inode: no free inode") ∧
    (∀ i0, ROOTINO ≤ i0 → i0 < ninodes → (inodes i0).ftype = FT_FREE →
      (∀ j, ROOTINO ≤ j → j < i0 → (inodes j).ftype ≠ FT_FREE) →
      inode_alloc inodes ninodes ftype =
        .ok (some (i0, Function.update inodes i0 { inodes i0 with ftype := ftype }))) := by
  constructor
  · intro h
    exact inode_alloc_scan_exhausted inodes ftype (ninodes - ROOTINO) ROOTINO
      fun j h1 h2 => h j h1 (by simp only [ROOTINO] at h1 h2; omega)
  · intro i0 h1 h2 hfree hmin
    refine inode_alloc_scan_first inodes ftype (ninodes - ROOTINO) ROOTINO i0 h1
      ?_ hfree hmin
    have h1b := h1
    simp only [ROOTINO] at h1b ⊢
    omega

/-- Witness for C5: on an image whose inodes are all in use the allocation
panics, and on an all-free image it allocates inode 1 (`ROOTINO`). -/
theorem inode_alloc_first_free_witness :
    inode_alloc (fun _ => ⟨0, FT_FILE, 1, 0, []⟩) 3 FT_FILE =
      .error "InodePtrManager::alloc_inode: no free inode" ∧
    inode_alloc (fun _ => ⟨0, FT_FREE, 0, 0, []⟩) 3 FT_DIR =
      .ok (some (1, Function.update (fun _ => ⟨0, FT_FREE, 0, 0, []⟩) 1
        ⟨0, FT_DIR, 0, 0, []⟩)) := by
  constructor
  · exact (inode_alloc_first_free (fun _ => ⟨0, FT_FILE, 1, 0, []⟩) 3 FT_FILE).1
      fun j _ _ => by simp [FT_FILE, FT_FREE]
  · exact (inode_alloc_first_free (fun _ => ⟨0, FT_FREE, 0, 0, []⟩) 3 FT_DIR).2
      1 (le_refl 1) (by norm_num) rfl
      (fun j h1 h2 => by simp only [ROOTINO] at h1; omega)

/-- Counterexample for C5 as stated: on a concrete image with every inode in
use, `inode_alloc` panics with "no free inode"; it does not return the
claimed `None`. -/
theorem inode_alloc_counterexample :
    inode_alloc (fun _ => ⟨0, FT_FILE, 1, 0, []⟩) 3 FT_FILE =
      .error "InodePtrManager::alloc_inode: no free inode" ∧
    inode_alloc (fun _ => ⟨0, FT_FILE, 1, 0, []⟩) 3 FT_FILE ≠ .ok none := by
  refine ⟨rfl, ?_⟩
  intro h
  exact Except.noConfusion h

/-! ## C7 and C10: `LogManager::write` -/

/-- C7: a `log_write` that returns normally consumes no slot when the
buffer's id already occurs among `block[0..n]` (the header is unchanged),
and otherwise appends the id at slot `n` and increments `n` by exactly one.
The occurrence check in `lm_write` is the linear scan of `block[0..n]`. -/
theorem lm_write_absorption (lh : LogHeader) (out id : Nat) (lh2 : LogHeader)
    (hlen : lh.n ≤ lh.block.length)
    (hok : lm_write lh out id = .ok lh2) :
    ((∃ i, i < lh.n ∧ lh.block.getD i 0 = id) → lh2.n = lh.n ∧ lh2.block = lh.block) ∧
    ((∀ i, i < lh.n → lh.block.getD i 0 ≠ id) →
      lh2.n = lh.n + 1 ∧ lh2.block = lh.block.set lh.n id) := by
  unfold lm_write at hok
  by_cases h1 : lh.n < LOGSIZE
  · rw [if_pos h1] at hok
    by_cases h2 : 0 < out
    · rw [if_pos h2] at hok
      cases hfind : (List.range lh.n).find? (fun i => lh.block.getD i 0 == id) with
      | some i =>
        have hp := List.find?_some hfind
        have hieq : lh.block.getD i 0 = id := by simpa using hp
        have hmem : i ∈ List.range lh.n := List.mem_of_find?_eq_some hfind
        have hilt : i < lh.n := List.mem_range.mp hmem
        simp only [hfind] at hok
        have hlt : i < lh.block.length := lt_of_lt_of_le hilt hlen
        rw [if_pos hlt, if_neg (Nat.ne_of_lt hilt)] at hok
        injection hok with hok
        subst hok
        constructor
        · intro _
          refine ⟨rfl, ?_⟩
          rw [← hieq]
          exact set_getD_self lh.block i hlt
        · intro hnone
          exact absurd hieq (hnone i hilt)
      | none =>
        have hnone : ∀ i, i < lh.n → lh.block.getD i 0 ≠ id := by
          intro i hi
          have := List.find?_eq_none.mp hfind i (List.mem_range.mpr hi)
          simpa using this
        simp only [hfind] at hok
        by_cases h3 : lh.n < lh.block.length
        · rw [if_pos h3] at hok
          simp only [if_true] at hok
          injection hok with hok
          subst hok
          constructor
          · rintro ⟨i, hi, hieq⟩
            exact absurd hieq (hnone i hi)
          · intro _
            exact ⟨rfl, rfl⟩
        · rw [if_neg h3] at hok
          exact absurd hok (by simp)
    · rw [if_neg h2] at hok
      exact absurd hok (by simp)
  · rw [if_neg h1] at hok
    exact absurd hok (by simp)

/-- Witness for C7: a fresh block id is appended at slot `n` and the count
grows by one on a concrete header. -/
theorem lm_write_absorption_witness :
    (2 ≤ ([7, 9, 0, 0] : List Nat).length ∧
      lm_write ⟨2, [7, 9, 0, 0]⟩ 1 5 = .ok ⟨3, [7, 9, 5, 0]⟩) ∧
    ((⟨3, [7, 9, 5, 0]⟩ : LogHeader).n = (⟨2, [7, 9, 0, 0]⟩ : LogHeader).n + 1 ∧
      (⟨3, [7, 9, 5, 0]⟩ : LogHeader).block =
        (⟨2, [7, 9, 0, 0]⟩ : LogHeader).block.set (⟨2, [7, 9, 0, 0]⟩ : LogHeader).n 5) := by
  refine ⟨⟨by decide, rfl⟩, ?_⟩
  exact (lm_write_absorption ⟨2, [7, 9, 0, 0]⟩ 1 5 ⟨3, [7, 9, 5, 0]⟩ (by decide) rfl).2
    (by decide)

/-- C10: `LogManager::write` fails one of its two leading assertions — and
returns no updated header — exactly when no transaction is outstanding or
the logged count has reached `LOGSIZE`; when `outstanding > 0` and
`n < LOGSIZE`, neither assertion fires. -/
theorem lm_write_asserts (lh : LogHeader) (outstanding id : Nat) :
    ((outstanding = 0 ∨ LOGSIZE ≤ lh.n) → lm_write lh outstanding id = .assertFail) ∧
    (0 < outstanding → lh.n < LOGSIZE → lm_write lh outstanding id ≠ .assertFail) := by
  constructor
  · rintro (h | h)
    · unfold lm_write
      subst h
      simp
    · unfold lm_write
      rw [if_neg (Nat.not_lt.mpr h)]
  · intro h1 h2
    unfold lm_write
    rw [if_pos h2, if_pos h1]
    simp only
    cases (List.range lh.n).find? (fun i => lh.block.getD i 0 == id) with
    | some i =>
      by_cases h3 : i < lh.block.length
      · rw [if_pos h3]
        split <;> simp
      · rw [if_neg h3]
        simp
    | none =>
      by_cases h3 : lh.n < lh.block.length
      · rw [if_pos h3, if_pos rfl]
        simp
      · rw [if_neg h3]
        simp

/-- Witness for C10: the assertion fires on a concrete over-full header and
does not fire on a concrete valid one. -/
theorem lm_write_asserts_witness :
    lm_write ⟨LOGSIZE, []⟩ 1 0 = .assertFail ∧
    lm_write ⟨0, [0, 0]⟩ 1 5 ≠ .assertFail := by
  constructor
  · exact (lm_write_asserts ⟨LOGSIZE, []⟩ 1 0).1 (Or.inr (le_refl _))
  · exact (lm_write_asserts ⟨0, [0, 0]⟩ 1 5).2 (by decide) (by decide)

/-! ## C8: `MAXFILE` and the range structure of `block_map` -/

/-- Counterexample for C8 as stated: in the code `MAXFILE` is not
`NDIRECT + NINDIRECT` (it is `NDIRECT + NINDIRECT + NINDIRECT²`). -/
theorem maxfile_counterexample : MAXFILE ≠ NDIRECT + NINDIRECT := by decide

/-- C8 (amended): `block_map` serves logical block `bn` from the direct
slots for `bn < NDIRECT`, through the singly-indirect block for
`NDIRECT ≤ bn < NDIRECT + NINDIRECT`, and maps every
`bn ≥ NDIRECT + NINDIRECT` to block 0 (doubly-indirect blocks are
unsupported), while `MAXFILE = NDIRECT + NINDIRECT + NINDIRECT²`. -/
theorem block_map_ranges (st : BmapSt) (bn : Nat) :
    (NDIRECT + NINDIRECT ≤ bn → block_map st bn = some (0, st)) ∧
    (bn < NDIRECT → st.addrs.getD bn 0 ≠ 0 →
      block_map st bn = some (st.addrs.getD bn 0, st)) ∧
    (NDIRECT ≤ bn → bn < NDIRECT + NINDIRECT → st.addrs.getD NDIRECT 0 ≠ 0 →
      st.ind (bn - NDIRECT) ≠ 0 →
      block_map st bn = some (st.ind (bn - NDIRECT), st)) ∧
    MAXFILE = NDIRECT + NINDIRECT + NINDIRECT * NINDIRECT := by
  refine ⟨?_, ?_, ?_, rfl⟩
  · intro h
    have h1 : ¬ bn < NDIRECT := by omega
    have h2 : ¬ bn - NDIRECT < NINDIRECT := by omega
    simp [block_map, h1, h2]
  · intro h1 h2
    simp only [List.getD_eq_getElem?_getD] at h2
    simp [block_map, h1, h2]
  · intro h1 h2 h3 h4
    have h5 : ¬ bn < NDIRECT := by omega
    have h6 : bn - NDIRECT < NINDIRECT := by omega
    simp only [List.getD_eq_getElem?_getD] at h3
    simp [block_map, h5, h6, h3, h4]

/-- Witness for C8: the three range cases evaluated on a concrete block-map
state. -/
theorem block_map_ranges_witness :
    block_map ⟨[1, 2, 3, 4, 5, 6, 7, 8, 9, 10, 11, 12], fun _ => 99, []⟩ 139 =
      some (0, ⟨[1, 2, 3, 4, 5, 6, 7, 8, 9, 10, 11, 12], fun _ => 99, []⟩) ∧
    block_map ⟨[1, 2, 3, 4, 5, 6, 7, 8, 9, 10, 11, 12], fun _ => 99, []⟩ 0 =
      some (1, ⟨[1, 2, 3, 4, 5, 6, 7, 8, 9, 10, 11, 12], fun _ => 99, []⟩) ∧
    block_map ⟨[1, 2, 3, 4, 5, 6, 7, 8, 9, 10, 11, 12], fun _ => 99, []⟩ 11 =
      some (99, ⟨[1, 2, 3, 4, 5, 6, 7, 8, 9, 10, 11, 12], fun _ => 99, []⟩) := by
  refine ⟨?_, ?_, ?_⟩
  · exact (block_map_ranges _ 139).1 (by decide)
  · exact (block_map_ranges _ 0).2.1 (by decide) (by decide)
  · exact (block_map_ranges _ 11).2.2.1 (by decide) (by decide) (by decide) (by norm_num)

/-! ## C2: admission control of `begin_op` -/

/-- Setting a valid index of a list and reading it back gives the value. -/
theorem getD_set_self (l : List Nat) (k v : Nat) (h : k < l.length) :
    (l.set k v).getD k 0 = v := by
  induction l generalizing k with
  | nil => simp at h
  | cons a l ih =>
    cases k with
    | zero => rfl
    | succ k =>
      simp only [List.length_cons, Nat.succ_lt_succ_iff] at h
      simpa [List.set, List.getD] using ih k h

/-- From a reachable log state, outstanding operation `k` can issue `m`
consecutive fresh `log_write`s (staying within its budget and within the
48-slot `block` array), reaching the state with `n` increased by `m` and the
budget reduced accordingly. -/
theorem logReach_writes (size : Nat) :
    ∀ (m n : Nat) (ops : List Nat) (k x : Nat),
    LogReach size ⟨n, ops⟩ → k < ops.length → ops.getD k 0 = x + m →
    n + m ≤ LOGSIZE - 1 →
    LogReach size ⟨n + m, ops.set k x⟩ := by
  intro m
  induction m with
  | zero =>
    intro n ops k x hreach hk hbud _
    have : ops.set k x = ops := by
      rw [← Nat.add_zero x, ← hbud]
      exact set_getD_self ops k hk
    simpa [this] using hreach
  | succ m ih =>
    intro n ops k x hreach hk hbud hcap
    have hbudget : 0 < ops.getD k 0 := by omega
    have hroom : n + 1 < LOGSIZE := by
      simp only [LOGSIZE, MAXOPBLOCKS] at hcap ⊢; omega
    have hstep : LogReach size ⟨n + 1, ops.set k (ops.getD k 0 - 1)⟩ :=
      .step _ _ hreach (.writeFresh ⟨n, ops⟩ k hk hbudget hroom)
    have hset : ops.getD k 0 - 1 = x + m := by omega
    rw [hset] at hstep
    have hfin := ih (n + 1) (ops.set k (x + m)) k x hstep
      (by simpa using hk)
      (getD_set_self ops k (x + m) hk)
      (by omega)
    rw [List.set_set] at hfin
    have harith : n + 1 + m = n + (m + 1) := by omega
    rw [harith] at hfin
    exact hfin

/-- C2 (code behaviour at the claim's failing input): from the initial state
the schedule — begin A, begin B, A logs 16 blocks, end A, B logs 1 block,
begin C, end B, begin D, C logs 16 blocks, D logs 15 blocks, end C — is
admitted by `begin_op`'s bound `n + (outstanding+1)*MAXOPBLOCKS ≤ nlog`
(with `nlog = LOGSIZE = 49`).  It passes through the state `n = 17` with two
fresh operations (a combined reservation of `17 + 2*16 = 49` slots,
violating the claimed bound `nlog - 1 = 48`), and reaches `n = 48` with an
operation still entitled to one more fresh write; that write makes
`LogManager::write` index slot 48 of the 48-entry `block` array and panic. -/
theorem begin_op_admission_overflow :
    LogReach LOGSIZE ⟨17, [16, 16]⟩ ∧
    ¬ (17 + 2 * MAXOPBLOCKS ≤ LOGSIZE - 1) ∧
    LogReach LOGSIZE ⟨48, [1]⟩ ∧
    lm_write ⟨48, (List.range 48).map (fun i => i + 100)⟩ 1 99 = .indexPanic := by
  have h0 : LogReach LOGSIZE ⟨0, []⟩ := .init
  have h1 : LogReach LOGSIZE ⟨0, [16]⟩ :=
    .step _ _ h0 (.beginOp ⟨0, []⟩ (by decide))
  have h2 : LogReach LOGSIZE ⟨0, [16, 16]⟩ :=
    .step _ _ h1 (.beginOp ⟨0, [16]⟩ (by decide))
  have h3 : LogReach LOGSIZE ⟨16, [0, 16]⟩ := by
    have := logReach_writes LOGSIZE 16 0 [16, 16] 0 0 h2 (by decide) (by decide) (by decide)
    simpa using this
  have h4 : LogReach LOGSIZE ⟨16, [16]⟩ := by
    have := LogReach.step _ _ h3 (.endOp ⟨16, [0, 16]⟩ 0 (by decide))
    simpa using this
  have h5 : LogReach LOGSIZE ⟨17, [15]⟩ := by
    have := logReach_writes LOGSIZE 1 16 [16] 0 15 h4 (by decide) (by decide) (by decide)
    simpa using this
  have h6 : LogReach LOGSIZE ⟨17, [16, 15]⟩ :=
    .step _ _ h5 (.beginOp ⟨17, [15]⟩ (by decide))
  have h7 : LogReach LOGSIZE ⟨17, [16]⟩ := by
    have := LogReach.step _ _ h6 (.endOp ⟨17, [16, 15]⟩ 1 (by decide))
    simpa using this
  have h8 : LogReach LOGSIZE ⟨17, [16, 16]⟩ :=
    .step _ _ h7 (.beginOp ⟨17, [16]⟩ (by decide))
  have h9 : LogReach LOGSIZE ⟨33, [0, 16]⟩ := by
    have := logReach_writes LOGSIZE 16 17 [16, 16] 0 0 h8 (by decide) (by decide) (by decide)
    simpa using this
  have h10 : LogReach LOGSIZE ⟨48, [0, 1]⟩ := by
    have := logReach_writes LOGSIZE 15 33 [0, 16] 1 1 h9 (by decide) (by decide) (by decide)
    simpa using this
  have h11 : LogReach LOGSIZE ⟨48, [1]⟩ := by
    have := LogReach.step _ _ h10 (.endOp ⟨48, [0, 1]⟩ 0 (by decide))
    simpa using this
  exact ⟨h8, by decide, h11, rfl⟩

/-! ## C1: crash atomicity of `Log::commit` — trace lemmas -/

/-- Folding `trValF` from an arbitrary accumulator: the accumulator only
survives when the trace contains no write to `b`. -/
theorem trVal_go (b : Nat) :
    ∀ (ws : List Wr) (acc : Option Nat),
    ws.foldl (trValF b) acc = (trVal b ws).elim acc some := by
  intro ws
  induction ws with
  | nil => intro acc; rfl
  | cons w ws ih =>
    intro acc
    show ws.foldl (trValF b) (trValF b acc w) = _
    rw [ih (trValF b acc w)]
    have hc : trVal b (w :: ws) = (trVal b ws).elim (trValF b none w) some := by
      show ws.foldl (trValF b) (trValF b none w) = _
      exact ih _
    rw [hc]
    cases htv : trVal b ws with
    | some v => rfl
    | none =>
      cases w with
      | blk id v =>
        by_cases hid : id = b
        · simp [trValF, hid]
        · simp [trValF, hid]
      | hdr h => rfl

/-- `trVal` over a cons. -/
theorem trVal_cons (b : Nat) (w : Wr) (ws : List Wr) :
    trVal b (w :: ws) = (trVal b ws).elim (trValF b none w) some := by
  show ws.foldl (trValF b) (trValF b none w) = _
  exact trVal_go b ws _

/-- `trVal` over an append: the later segment wins when it writes `b`. -/
theorem trVal_append (b : Nat) (xs ys : List Wr) :
    trVal b (xs ++ ys) = (trVal b ys).elim (trVal b xs) some := by
  show (xs ++ ys).foldl (trValF b) none = _
  rw [List.foldl_append]
  exact trVal_go b ys _

/-- Folding `trHdrF` from an arbitrary accumulator. -/
theorem trHdr_go :
    ∀ (ws : List Wr) (acc : Option LogHeader),
    ws.foldl trHdrF acc = (trHdr ws).elim acc some := by
  intro ws
  induction ws with
  | nil => intro acc; rfl
  | cons w ws ih =>
    intro acc
    show ws.foldl trHdrF (trHdrF acc w) = _
    rw [ih (trHdrF acc w)]
    have hc : trHdr (w :: ws) = (trHdr ws).elim (trHdrF none w) some := by
      show ws.foldl trHdrF (trHdrF none w) = _
      exact ih _
    rw [hc]
    cases htv : trHdr ws with
    | some v => rfl
    | none => cases w <;> rfl

/-- `trHdr` over a cons. -/
theorem trHdr_cons (w : Wr) (ws : List Wr) :
    trHdr (w :: ws) = (trHdr ws).elim (trHdrF none w) some := by
  show ws.foldl trHdrF (trHdrF none w) = _
  exact trHdr_go ws _

/-- `trHdr` over an append. -/
theorem trHdr_append (xs ys : List Wr) :
    trHdr (xs ++ ys) = (trHdr ys).elim (trHdr xs) some := by
  show (xs ++ ys).foldl trHdrF none = _
  rw [List.foldl_append]
  exact trHdr_go ys _

/-- Pointwise effect of a trace on a block: the last write to `b` if there is
one, else the initial content. -/
theorem applyTrace_blk :
    ∀ (ws : List Wr) (d : Disk) (b : Nat),
    (applyTrace d ws).blk b = (trVal b ws).elim (d.blk b) id := by
  intro ws
  induction ws with
  | nil => intro d b; rfl
  | cons w ws ih =>
    intro d b
    show (applyTrace (applyW d w) ws).blk b = _
    rw [ih (applyW d w) b, trVal_cons]
    cases htv : trVal b ws with
    | some v => rfl
    | none =>
      cases w with
      | blk id v =>
        by_cases hid : id = b
        · subst hid
          simp [applyW, trValF, Function.update_apply]
        · simp [applyW, trValF, hid, Function.update_apply, Ne.symm hid]
      | hdr h => rfl

/-- Effect of a trace on the header block: the last header write if there is
one, else the initial header. -/
theorem applyTrace_hdr :
    ∀ (ws : List Wr) (d : Disk),
    (applyTrace d ws).hdr = (trHdr ws).elim d.hdr id := by
  intro ws
  induction ws with
  | nil => intro d; rfl
  | cons w ws ih =>
    intro d
    show (applyTrace (applyW d w) ws).hdr = _
    rw [ih (applyW d w), trHdr_cons]
    cases htv : trHdr ws with
    | some v => rfl
    | none => cases w <;> rfl

/-- A trace containing no write to `b` leaves no last-write value. -/
theorem trVal_eq_none_of (b : Nat) :
    ∀ (ws : List Wr), (∀ id v, Wr.blk id v ∈ ws → id ≠ b) → trVal b ws = none := by
  intro ws
  induction ws with
  | nil => intro _; rfl
  | cons w ws ih =>
    intro h
    rw [trVal_cons, ih fun id v hm => h id v (List.mem_cons_of_mem w hm)]
    cases w with
    | blk id v =>
      have : id ≠ b := h id v (List.mem_cons_self _ _)
      simp [trValF, this]
    | hdr hh => rfl

/-- A trace containing no header write leaves no last header. -/
theorem trHdr_eq_none_of :
    ∀ (ws : List Wr), (∀ hh, Wr.hdr hh ∈ ws → False) → trHdr ws = none := by
  intro ws
  induction ws with
  | nil => intro _; rfl
  | cons w ws ih =>
    intro h
    rw [trHdr_cons, ih fun hh hm => h hh (List.mem_cons_of_mem w hm)]
    cases w with
    | blk id v => rfl
    | hdr hh => exact absurd (List.mem_cons_self _ _) fun hm => h hh hm

/-- If every write to `b` in a trace writes `val`, the last-write value is
`none` or `some val`. -/
theorem trVal_const (b val : Nat) :
    ∀ (ws : List Wr), (∀ id v, Wr.blk id v ∈ ws → id = b → v = val) →
    trVal b ws = none ∨ trVal b ws = some val := by
  intro ws
  induction ws with
  | nil => intro _; exact Or.inl rfl
  | cons w ws ih =>
    intro h
    rw [trVal_cons]
    rcases ih (fun id v hm => h id v (List.mem_cons_of_mem w hm)) with hn | hs
    · rw [hn]
      cases w with
      | blk id v =>
        by_cases hid : id = b
        · right
          have := h id v (List.mem_cons_self _ _) hid
          simp [trValF, hid, this]
        · left; simp [trValF, hid]
      | hdr hh => exact Or.inl rfl
    · rw [hs]
      exact Or.inr rfl

/-- A trace containing a write to `b` has a last-write value. -/
theorem trVal_ne_none (b v : Nat) :
    ∀ (ws : List Wr), Wr.blk b v ∈ ws → trVal b ws ≠ none := by
  intro ws
  induction ws with
  | nil => intro h; cases h
  | cons w ws ih =>
    intro h
    rw [trVal_cons]
    cases htv : trVal b ws with
    | some u => simp
    | none =>
      rcases List.mem_cons.mp h with he | hm
      · subst he
        simp [trValF]
      · exact absurd htv (ih hm)

/-- If every write to `b` writes `val` and some write to `b` occurs, the
last-write value is `some val`. -/
theorem trVal_some_of (b val : Nat) (ws : List Wr)
    (hall : ∀ id v, Wr.blk id v ∈ ws → id = b → v = val)
    (hex : ∃ v0, Wr.blk b v0 ∈ ws) :
    trVal b ws = some val := by
  rcases hex with ⟨v0, hmem⟩
  rcases trVal_const b val ws hall with hn | hs
  · exact absurd hn (trVal_ne_none b v0 ws hmem)
  · exact hs

/-- Reading a valid index of a list yields one of its members. -/
theorem getD_mem (l : List Nat) (i : Nat) (h : i < l.length) : l.getD i 0 ∈ l := by
  induction l generalizing i with
  | nil => simp at h
  | cons a l ih =>
    cases i with
    | zero => exact List.mem_cons_self a l
    | succ i =>
      simp only [List.length_cons, Nat.succ_lt_succ_iff] at h
      exact List.mem_cons_of_mem a (ih i h)

/-- Reading all valid indices of a list in order reproduces the list. -/
theorem map_getD_range (l : List Nat) :
    (List.range l.length).map (fun i => l.getD i 0) = l := by
  induction l with
  | nil => rfl
  | cons a l ih =>
    rw [List.length_cons, List.range_succ_eq_map, List.map_cons, List.map_map]
    have h1 : ((fun i => (a :: l).getD i 0) ∘ Nat.succ) = fun i => l.getD i 0 := rfl
    rw [h1, ih]
    rfl

/-- A leading segment of `List.range`. -/
theorem range_take (k n : Nat) (h : k ≤ n) :
    (List.range n).take k = List.range k := by
  induction n with
  | zero =>
    have hk0 : k = 0 := by omega
    subst hk0; rfl
  | succ n ih =>
    by_cases hk : k ≤ n
    · rw [List.range_succ, List.take_append_of_le_length (by simpa using hk), ih hk]
    · have hk1 : k = n + 1 := by omega
      subst hk1
      exact List.take_of_length_le (by simp)

/-- Every member of a list of naturals is read off by `getD` at some valid
index. -/
theorem exists_getD_of_mem (l : List Nat) (b : Nat) (h : b ∈ l) :
    ∃ i, i < l.length ∧ l.getD i 0 = b := by
  induction l with
  | nil => cases h
  | cons a l ih =>
    rcases List.mem_cons.mp h with he | hm
    · exact ⟨0, by simp, he.symm⟩
    · obtain ⟨i, hi, hgi⟩ := ih hm
      exact ⟨i + 1, by simpa using hi, hgi⟩

/-- The recovery install loop, on a well-formed committed header — every
visited home entry valid and outside the log area `[head, head + size)`,
the corresponding log-body block holding its cached image — succeeds and
rewrites exactly the visited home blocks with those images, touching nothing
else outside the log area. -/
theorem installGo_spec (head size : Nat) (dst : List Nat) (cache : Nat → Nat)
    (hsize : dst.length < size)
    (houts : ∀ b ∈ dst, outside head size b) :
    ∀ (is : List Nat) (blk : Nat → Nat),
    (∀ i ∈ is, i < dst.length) →
    (∀ i ∈ is, blk (head + i + 1) = cache (dst.getD i 0)) →
    ∃ blk2, installGo head dst is blk = some blk2 ∧
      ∀ b, outside head size b →
        blk2 b = if b ∈ is.map (fun i => dst.getD i 0) then cache b else blk b := by
  intro is
  induction is with
  | nil =>
    intro blk _ _
    exact ⟨blk, rfl, fun b _ => by simp⟩
  | cons i is ih =>
    intro blk hbound hsrc
    have hi : i < dst.length := hbound i (List.mem_cons_self _ _)
    have hgetD : dst.getD i 0 = dst[i] := by
      rw [List.getD_eq_getElem?_getD, List.getElem?_eq_getElem hi]
      rfl
    have hget : dst.get? i = some (dst.getD i 0) := by
      rw [List.get?_eq_getElem?, List.getElem?_eq_getElem hi, hgetD]
    have hout_i : outside head size (dst.getD i 0) := houts _ (getD_mem dst i hi)
    have hin : ¬ outside head size (head + i + 1) := by
      unfold outside
      push_neg
      omega
    have hne : dst.getD i 0 ≠ head + i + 1 := fun he => hin (he ▸ hout_i)
    have hsrc_i : blk (head + i + 1) = cache (dst.getD i 0) :=
      hsrc i (List.mem_cons_self _ _)
    have hstep : installGo head dst (i :: is) blk =
        installGo head dst is
          (Function.update blk (dst.getD i 0) (blk (head + i + 1))) := by
      show (match dst.get? i with
        | none => none
        | some b => if b = head + i + 1 then none
            else installGo head dst is (Function.update blk b (blk (head + i + 1)))) = _
      rw [hget]
      simp only [if_neg hne]
    have hsrc1 : ∀ j ∈ is,
        (Function.update blk (dst.getD i 0) (blk (head + i + 1))) (head + j + 1) =
          cache (dst.getD j 0) := by
      intro j hj
      have hjb : j < dst.length := hbound j (List.mem_cons_of_mem _ hj)
      have hjin : ¬ outside head size (head + j + 1) := by
        unfold outside
        push_neg
        omega
      have hne2 : head + j + 1 ≠ dst.getD i 0 := fun he => hjin (he ▸ hout_i)
      rw [Function.update_apply, if_neg hne2]
      exact hsrc j (List.mem_cons_of_mem _ hj)
    obtain ⟨blk2, hrun, hval⟩ := ih (Function.update blk (dst.getD i 0) (blk (head + i + 1)))
      (fun j hj => hbound j (List.mem_cons_of_mem _ hj)) hsrc1
    refine ⟨blk2, hstep.trans hrun, ?_⟩
    intro b hb
    rw [hval b hb]
    simp only [List.map_cons]
    by_cases hmem : b ∈ is.map (fun j => dst.getD j 0)
    · rw [if_pos hmem, if_pos (List.mem_cons.mpr (Or.inr hmem))]
    · rw [if_neg hmem]
      by_cases hbi : b = dst.getD i 0
      · rw [if_pos (List.mem_cons.mpr (Or.inl hbi))]
        rw [hbi, Function.update_same, hsrc_i, ← hbi]
      · rw [if_neg (fun hmem2 => by
          rcases List.mem_cons.mp hmem2 with h | h
          · exact hbi h
          · exact hmem h)]
        rw [Function.update_apply, if_neg hbi]

/-- `Log::recover` on a disk whose header records the committed transaction
`dst` and whose log body holds the cached images: recovery succeeds, clears
the header, and leaves every block outside the log area holding its cached
image if it was logged and its previous device content otherwise. -/
theorem recover_committed (head size : Nat) (dst : List Nat) (cache : Nat → Nat) (d : Disk)
    (hhdr : d.hdr = ⟨dst.length, dst⟩)
    (hsize : dst.length < size)
    (houts : ∀ b ∈ dst, outside head size b)
    (hsrc : ∀ i, i < dst.length → d.blk (head + i + 1) = cache (dst.getD i 0)) :
    ∃ r, recover head d = some r ∧ r.hdr = ⟨0, dst⟩ ∧
      ∀ b, outside head size b → r.blk b = if b ∈ dst then cache b else d.blk b := by
  obtain ⟨blk2, hrun, hval⟩ := installGo_spec head size dst cache hsize houts
    (List.range dst.length) d.blk
    (fun i hi => List.mem_range.mp hi)
    (fun i hi => hsrc i (List.mem_range.mp hi))
  refine ⟨⟨⟨0, dst⟩, blk2⟩, ?_, rfl, ?_⟩
  · unfold recover install_commit
    rw [hhdr]
    simp only
    rw [hrun]
  · intro b hb
    show blk2 b = _
    rw [hval b hb, map_getD_range]

/-- Last raw write to `b` across the commit shape `A ++ (hdr :: T)`: the
header write is transparent, the tail wins over the front. -/
theorem trVal_commit_shape (b : Nat) (A T : List Wr) (h1 : LogHeader) :
    trVal b (A ++ (Wr.hdr h1 :: T)) = (trVal b T).elim (trVal b A) some := by
  rw [trVal_append, trVal_cons]
  cases trVal b T with
  | some v => rfl
  | none => rfl

/-- Last header write across the commit shape `A ++ (hdr :: T)`. -/
theorem trHdr_commit_shape (A T : List Wr) (h1 : LogHeader) :
    trHdr (A ++ (Wr.hdr h1 :: T)) = (trHdr T).elim (some h1) some := by
  rw [trHdr_append, trHdr_cons]
  cases trHdr T with
  | some v => rfl
  | none => rfl

/-- Membership in the `write_log` trace. -/
theorem mem_writeLogW (head : Nat) (lh : LogHeader) (cache : Nat → Nat) (w : Wr) :
    w ∈ writeLogW head lh cache ↔
      ∃ j, j < lh.n ∧ w = Wr.blk (head + j + 1) (cache (lh.block.getD j 0)) := by
  unfold writeLogW
  constructor
  · intro hw
    obtain ⟨j, hjr, hfw⟩ := List.mem_map.mp hw
    exact ⟨j, List.mem_range.mp hjr, hfw.symm⟩
  · rintro ⟨j, hj, rfl⟩
    exact List.mem_map.mpr ⟨j, List.mem_range.mpr hj, rfl⟩

/-- C1: crash atomicity of `Log::commit`.  Consider one transaction: the
logged home blocks `dst` (pairwise-distinct by log absorption, though this is
not needed) all lie outside the log area `[head, head + size)` and fit in the
log body (`dst.length < size`); the disk `d0` is quiescent (`d0.hdr.n = 0`),
its home blocks holding their pre-operation images, while the pinned buffer
cache holds the post-operation images `cache`.  Then for every prefix of the
device-write sequence that `Log::commit` issues, running `Log::recover` on
the resulting disk image succeeds, and every block outside the log area is in
its pre-operation state if the prefix stops before the log-header write (the
commit point), and in its post-operation state (`postBlk`) as soon as the
prefix includes it — never a mixture; the header write is the single atomic
switch. -/
theorem log_commit_crash_atomic
    (head size : Nat) (dst : List Nat) (cache : Nat → Nat) (d0 : Disk)
    (hn0 : d0.hdr.n = 0)
    (hlen : dst.length < size)
    (houts : ∀ b ∈ dst, outside head size b)
    (k : Nat) (hk : k ≤ (commitW head ⟨dst.length, dst⟩ cache).length) :
    ∃ r,
      recover head (applyTrace d0 ((commitW head ⟨dst.length, dst⟩ cache).take k)) = some r ∧
      ((k ≤ dst.length ∧ ∀ b, outside head size b → r.blk b = d0.blk b) ∨
       (dst.length < k ∧ ∀ b, outside head size b →
          r.blk b = postBlk dst cache d0.blk b)) := by
  by_cases hn : dst.length = 0
  · -- empty transaction: commit issues no writes
    have hcw : commitW head ⟨dst.length, dst⟩ cache = [] := by
      unfold commitW
      have h0 : ¬ 0 < (⟨dst.length, dst⟩ : LogHeader).n := by
        show ¬ 0 < dst.length
        omega
      rw [if_neg h0]
    rw [hcw] at hk ⊢
    have hk0 : k = 0 := by simpa using hk
    subst hk0
    refine ⟨⟨⟨0, d0.hdr.block⟩, d0.blk⟩, ?_, Or.inl ⟨by omega, fun b _ => rfl⟩⟩
    show recover head d0 = _
    unfold recover install_commit
    rw [hn0]
    rfl
  · have hpos : 0 < dst.length := Nat.pos_of_ne_zero hn
    have hcw : commitW head ⟨dst.length, dst⟩ cache =
        writeLogW head ⟨dst.length, dst⟩ cache ++
          (Wr.hdr ⟨dst.length, dst⟩ ::
            (installCommitW ⟨dst.length, dst⟩ cache ++ [Wr.hdr ⟨0, dst⟩])) := by
      unfold commitW
      rw [if_pos (by show 0 < dst.length; omega)]
      simp [List.append_assoc]
    have hlenA : (writeLogW head ⟨dst.length, dst⟩ cache).length = dst.length := by
      unfold writeLogW
      simp
    have hlenB : (installCommitW ⟨dst.length, dst⟩ cache).length = dst.length := by
      unfold installCommitW
      simp
    by_cases hkle : k ≤ dst.length
    · -- the prefix stops before the commit-point header write
      have htake : (commitW head ⟨dst.length, dst⟩ cache).take k =
          (List.range k).map (fun i => Wr.blk (head + i + 1) (cache (dst.getD i 0))) := by
        rw [hcw, List.take_append_eq_append_take]
        have h0 : k - (writeLogW head ⟨dst.length, dst⟩ cache).length = 0 := by
          rw [hlenA]; omega
        rw [h0]
        simp only [List.take_zero, List.append_nil]
        unfold writeLogW
        rw [← List.map_take]
        congr 1
        exact range_take k dst.length hkle
      have hnoneH : trHdr ((List.range k).map
          (fun i => Wr.blk (head + i + 1) (cache (dst.getD i 0)))) = none := by
        apply trHdr_eq_none_of
        intro hh hm
        obtain ⟨j2, _, hfw⟩ := List.mem_map.mp hm
        exact Wr.noConfusion hfw
      have hhdr_dk :
          (applyTrace d0 ((commitW head ⟨dst.length, dst⟩ cache).take k)).hdr = d0.hdr := by
        rw [applyTrace_hdr, htake, hnoneH]
        rfl
      have hblk_dk : ∀ b, outside head size b →
          (applyTrace d0 ((commitW head ⟨dst.length, dst⟩ cache).take k)).blk b =
            d0.blk b := by
        intro b hb
        rw [applyTrace_blk, htake]
        have hnone : trVal b ((List.range k).map
            (fun i => Wr.blk (head + i + 1) (cache (dst.getD i 0)))) = none := by
          apply trVal_eq_none_of
          intro id v hm
          obtain ⟨j2, hj2r, hfw⟩ := List.mem_map.mp hm
          have hj2 : j2 < k := List.mem_range.mp hj2r
          have hfw2 : Wr.blk (head + j2 + 1) (cache (dst.getD j2 0)) = Wr.blk id v := hfw
          injection hfw2 with hid hv
          intro hidb
          rcases hb with hb | hb <;> omega
        rw [hnone]
        rfl
      refine ⟨⟨⟨0, (applyTrace d0 ((commitW head ⟨dst.length, dst⟩ cache).take k)).hdr.block,
          ⟩, (applyTrace d0 ((commitW head ⟨dst.length, dst⟩ cache).take k)).blk⟩,
        ?_, Or.inl ⟨hkle, fun b hb => hblk_dk b hb⟩⟩
      unfold recover install_commit
      have h0 : (applyTrace d0 ((commitW head ⟨dst.length, dst⟩ cache).take k)).hdr.n = 0 := by
        rw [hhdr_dk, hn0]
      rw [h0]
      rfl
    · -- the prefix includes the commit-point header write
      have hkgt : dst.length < k := Nat.lt_of_not_le hkle
      have hlentotal : (commitW head ⟨dst.length, dst⟩ cache).length = 2 * dst.length + 2 := by
        rw [hcw]
        simp only [List.length_append, List.length_cons, List.length_nil, hlenA, hlenB]
        omega
      have hk2 : k ≤ 2 * dst.length + 2 := by
        rw [hlentotal] at hk
        exact hk
      have hksub : k - dst.length = (k - dst.length - 1) + 1 := by omega
      have htake1 : (commitW head ⟨dst.length, dst⟩ cache).take k =
          writeLogW head ⟨dst.length, dst⟩ cache ++
            (Wr.hdr ⟨dst.length, dst⟩ ::
              ((installCommitW ⟨dst.length, dst⟩ cache ++ [Wr.hdr ⟨0, dst⟩]).take
                (k - dst.length - 1))) := by
        rw [hcw, List.take_append_eq_append_take]
        rw [List.take_of_length_le (by rw [hlenA]; omega)]
        congr 1
        rw [hlenA, hksub]
        rfl
      -- facts about the applied prefix, valid in both sub-cases below
      have hmemT : ∀ w ∈ (installCommitW ⟨dst.length, dst⟩ cache ++
            [Wr.hdr ⟨0, dst⟩]).take (k - dst.length - 1),
          w = Wr.hdr ⟨0, dst⟩ ∨
          ∃ j2, j2 < dst.length ∧ w = Wr.blk (dst.getD j2 0) (cache (dst.getD j2 0)) := by
        intro w hw
        have hw2 := List.mem_of_mem_take hw
        rcases List.mem_append.mp hw2 with hw3 | hw3
        · right
          unfold installCommitW at hw3
          obtain ⟨j2, hj2r, hfw⟩ := List.mem_map.mp hw3
          exact ⟨j2, List.mem_range.mp hj2r, hfw.symm⟩
        · left
          rcases List.mem_cons.mp hw3 with h | h
          · exact h
          · cases h
      have hblk_out : ∀ b, outside head size b → b ∉ dst →
          (applyTrace d0 ((commitW head ⟨dst.length, dst⟩ cache).take k)).blk b =
            d0.blk b := by
        intro b hb hbd
        rw [applyTrace_blk, htake1, trVal_commit_shape]
        have hT : trVal b ((installCommitW ⟨dst.length, dst⟩ cache ++
            [Wr.hdr ⟨0, dst⟩]).take (k - dst.length - 1)) = none := by
          apply trVal_eq_none_of
          intro id v hm
          rcases hmemT _ hm with h | ⟨j2, hj2, hfw⟩
          · exact absurd h (by intro hc; exact Wr.noConfusion hc)
          · injection hfw with hid hv
            intro hidb
            have hgb : dst.getD j2 0 = b := hid.symm.trans hidb
            exact hbd (hgb ▸ getD_mem dst j2 hj2)
        have hA : trVal b (writeLogW head ⟨dst.length, dst⟩ cache) = none := by
          apply trVal_eq_none_of
          intro id v hm
          obtain ⟨j2, hj2, hfw⟩ := (mem_writeLogW head ⟨dst.length, dst⟩ cache _).mp hm
          have hj2b : j2 < dst.length := hj2
          injection hfw.symm with hid hv
          intro hidb
          rcases hb with hb | hb <;> omega
        rw [hT, hA]
        rfl
      by_cases hjle : k - dst.length - 1 ≤ dst.length
      · -- mid-install: the header still records the transaction
        have htakeT : (installCommitW ⟨dst.length, dst⟩ cache ++
              [Wr.hdr ⟨0, dst⟩]).take (k - dst.length - 1) =
            (List.range (k - dst.length - 1)).map
              (fun i => Wr.blk (dst.getD i 0) (cache (dst.getD i 0))) := by
          rw [List.take_append_eq_append_take]
          have h0 : k - dst.length - 1 - (installCommitW ⟨dst.length, dst⟩ cache).length = 0 := by
            rw [hlenB]; omega
          rw [h0]
          simp only [List.take_zero, List.append_nil]
          unfold installCommitW
          rw [← List.map_take]
          congr 1
          exact range_take _ dst.length hjle
        have hhdr_dk :
            (applyTrace d0 ((commitW head ⟨dst.length, dst⟩ cache).take k)).hdr =
              ⟨dst.length, dst⟩ := by
          rw [applyTrace_hdr, htake1, trHdr_commit_shape, htakeT]
          have hTn : trHdr ((List.range (k - dst.length - 1)).map
              (fun i => Wr.blk (dst.getD i 0) (cache (dst.getD i 0)))) = none := by
            apply trHdr_eq_none_of
            intro hh hm
            obtain ⟨j2, _, hfw⟩ := List.mem_map.mp hm
            exact Wr.noConfusion hfw
          rw [hTn]
          rfl
        have hsrc_dk : ∀ i, i < dst.length →
            (applyTrace d0 ((commitW head ⟨dst.length, dst⟩ cache).take k)).blk
              (head + i + 1) = cache (dst.getD i 0) := by
          intro i hi
          rw [applyTrace_blk, htake1, trVal_commit_shape, htakeT]
          have hT : trVal (head + i + 1) ((List.range (k - dst.length - 1)).map
              (fun i => Wr.blk (dst.getD i 0) (cache (dst.getD i 0)))) = none := by
            apply trVal_eq_none_of
            intro id v hm
            obtain ⟨j2, hj2r, hfw⟩ := List.mem_map.mp hm
            have hj2 : j2 < k - dst.length - 1 := List.mem_range.mp hj2r
            have hfw2 : Wr.blk (dst.getD j2 0) (cache (dst.getD j2 0)) = Wr.blk id v := hfw
            injection hfw2 with hid hv
            intro hidb
            have hout2 : outside head size (dst.getD j2 0) :=
              houts _ (getD_mem dst j2 (by omega))
            rcases hout2 with h | h <;> omega
          have hA : trVal (head + i + 1) (writeLogW head ⟨dst.length, dst⟩ cache) =
              some (cache (dst.getD i 0)) := by
            apply trVal_some_of
            · intro id v hm
              obtain ⟨j2, hj2, hfw⟩ := (mem_writeLogW head ⟨dst.length, dst⟩ cache _).mp hm
              have hj2b : j2 < dst.length := hj2
              injection hfw.symm with hid hv
              intro hidb
              have hji : j2 = i := by omega
              rw [← hv, hji]
            · refine ⟨cache (dst.getD i 0), ?_⟩
              exact (mem_writeLogW head ⟨dst.length, dst⟩ cache _).mpr ⟨i, hi, rfl⟩
          rw [hT, hA]
          rfl
        obtain ⟨r, hrec, hrhdr, hrval⟩ := recover_committed head size dst cache
          (applyTrace d0 ((commitW head ⟨dst.length, dst⟩ cache).take k))
          hhdr_dk hlen houts hsrc_dk
        refine ⟨r, hrec, Or.inr ⟨hkgt, ?_⟩⟩
        intro b hb
        rw [hrval b hb]
        unfold postBlk
        by_cases hbd : b ∈ dst
        · rw [if_pos hbd, if_pos hbd]
        · rw [if_neg hbd, if_neg hbd]
          exact hblk_out b hb hbd
      · -- the whole commit ran: the cleared header is on disk
        have hjeq : k - dst.length - 1 = dst.length + 1 := by omega
        have htakeT : (installCommitW ⟨dst.length, dst⟩ cache ++
              [Wr.hdr ⟨0, dst⟩]).take (k - dst.length - 1) =
            installCommitW ⟨dst.length, dst⟩ cache ++ [Wr.hdr ⟨0, dst⟩] := by
          apply List.take_of_length_le
          rw [List.length_append, hlenB]
          simp [hjeq]
        have hhdr_dk :
            (applyTrace d0 ((commitW head ⟨dst.length, dst⟩ cache).take k)).hdr =
              ⟨0, dst⟩ := by
          rw [applyTrace_hdr, htake1, trHdr_commit_shape, htakeT]
          rw [trHdr_append]
          have h2 : trHdr [Wr.hdr (⟨0, dst⟩ : LogHeader)] = some ⟨0, dst⟩ := rfl
          rw [h2]
          rfl
        have hblk_dst : ∀ b, outside head size b → b ∈ dst →
            (applyTrace d0 ((commitW head ⟨dst.length, dst⟩ cache).take k)).blk b =
              cache b := by
          intro b hb hbd
          rw [applyTrace_blk, htake1, trVal_commit_shape, htakeT]
          have hTB : trVal b (installCommitW ⟨dst.length, dst⟩ cache ++
              [Wr.hdr ⟨0, dst⟩]) = some (cache b) := by
            rw [trVal_append]
            have h2 : trVal b [Wr.hdr (⟨0, dst⟩ : LogHeader)] = none := rfl
            rw [h2]
            have hB : trVal b (installCommitW ⟨dst.length, dst⟩ cache) = some (cache b) := by
              apply trVal_some_of
              · intro id v hm
                unfold installCommitW at hm
                obtain ⟨j2, hj2r, hfw⟩ := List.mem_map.mp hm
                have hfw2 : Wr.blk (dst.getD j2 0) (cache (dst.getD j2 0)) = Wr.blk id v := hfw
                injection hfw2 with hid hv
                intro hidb
                rw [← hv, hid, hidb]
              · obtain ⟨i2, hi2, hgi2⟩ := exists_getD_of_mem dst b hbd
                refine ⟨cache b, ?_⟩
                have hmm : Wr.blk (dst.getD i2 0) (cache (dst.getD i2 0)) ∈
                    installCommitW ⟨dst.length, dst⟩ cache := by
                  unfold installCommitW
                  exact List.mem_map.mpr ⟨i2, List.mem_range.mpr hi2, rfl⟩
                rw [hgi2] at hmm
                exact hmm
            rw [hB]
            rfl
          rw [hTB]
          rfl
        refine ⟨⟨⟨0, dst⟩,
            (applyTrace d0 ((commitW head ⟨dst.length, dst⟩ cache).take k)).blk⟩,
          ?_, Or.inr ⟨hkgt, ?_⟩⟩
        · unfold recover install_commit
          rw [hhdr_dk]
          rfl
        · intro b hb
          show (applyTrace d0 ((commitW head ⟨dst.length, dst⟩ cache).take k)).blk b = _
          unfold postBlk
          by_cases hbd : b ∈ dst
          · rw [if_pos hbd]
            exact hblk_dst b hb hbd
          · rw [if_neg hbd]
            exact hblk_out b hb hbd

/-- Witness for C1: a one-block transaction (home block 60, log at
`[2, 51)`, pre-image 3, post-image 7), crashed after the first device write
(the log-body copy, before the commit point): recovery leaves the home
blocks in their pre-operation state. -/
theorem log_commit_crash_atomic_witness :
    (⟨⟨0, [0]⟩, fun _ => 3⟩ : Disk).hdr.n = 0 ∧
    ([60] : List Nat).length < 49 ∧
    (∀ b ∈ ([60] : List Nat), outside 2 49 b) ∧
    1 ≤ (commitW 2 ⟨([60] : List Nat).length, [60]⟩ (fun _ => 7)).length ∧
    ∃ r,
      recover 2 (applyTrace ⟨⟨0, [0]⟩, fun _ => 3⟩
        ((commitW 2 ⟨([60] : List Nat).length, [60]⟩ (fun _ => 7)).take 1)) = some r ∧
      ((1 ≤ ([60] : List Nat).length ∧
          ∀ b, outside 2 49 b → r.blk b = (⟨⟨0, [0]⟩, fun _ => 3⟩ : Disk).blk b) ∨
       (([60] : List Nat).length < 1 ∧
          ∀ b, outside 2 49 b →
            r.blk b = postBlk [60] (fun _ => 7) (⟨⟨0, [0]⟩, fun _ => 3⟩ : Disk).blk b)) := by
  refine ⟨rfl, by decide, by decide, by decide, ?_⟩
  exact log_commit_crash_atomic 2 49 [60] (fun _ => 7) ⟨⟨0, [0]⟩, fun _ => 3⟩
    rfl (by decide) (by decide) 1 (by decide)

/-! ## C4: `fileunlink` decrements the parent's nlink, not the child's -/

/-- C4: on a concrete filesystem — parent directory inode 1 with entries
".", ".." and "f" (inum 2), child file inode 2 with `nlink = 1` — unlinking
"f" zeroes the directory entry but leaves the child's `nlink` at 1 and
decrements the parent directory's `nlink` from 1 to 0 instead. -/
theorem fileunlink_decrements_parent_not_child :
    (fileunlink
      ⟨fun i => if i = 2 then ⟨0, FT_FILE, 1, 0, []⟩ else ⟨0, FT_DIR, 1, 0, []⟩,
       fun i => if i = 1 then [⟨1, [46]⟩, ⟨1, [46, 46]⟩, ⟨2, [102]⟩] else []⟩
      1 [102]).map
      (fun st => ((st.inodes 2).nlink, (st.inodes 1).nlink, st.dirents 1)) =
    some (1, 0, [⟨1, [46]⟩, ⟨1, [46, 46]⟩, ⟨0, [0]⟩]) := by
  rfl

end FatFS
